import Mathlib

/-!
Verification of the next-swc build orchestration pipeline (next-api and
next-build crates): route/entrypoint resolution, the endpoint write contract,
client-reference chunk computation, build orchestration, and asset-graph
traversal and emission.

The Rust sources are shallowly embedded as executable Lean definitions:

* `IndexMap<String, Route>` is embedded as an association list with
  insert-or-replace-in-place semantics (`imInsert`, `imExtend`, `imLookup`),
  matching the `indexmap` crate's `insert`, `extend` and `entry` operations
  on maps whose construction never produces duplicate keys.
* Opaque external handles (modules, chunks, output assets) are embedded as
  natural-number identities; external computations (chunk-group expansion,
  app-route resolution, route sorting) are taken as function parameters.
* Fallible Rust code (`Result`, `.unwrap()`, `bail!`, `todo!()`) is embedded
  as `Option` or explicit outcome types, with a distinct constructor for a
  Rust panic.
-/

/-- Result value of a successful endpoint write, from
`next_api::route::WrittenEndpoint` as exposed by
`napi::next_api::endpoint::NapiWrittenEndpoint`. -/
structure WrittenEndpoint where
  server_entry_path : String
  server_paths : List String
  client_paths : List String
deriving DecidableEq, Repr

/-- Outcome of running one of the Rust endpoint bodies: a returned value, an
`anyhow` error (`bail!`), or a Rust panic (`todo!()` / `.unwrap()` on `None`).
-/
inductive WriteOutcome where
  | ok (written : WrittenEndpoint)
  | failed (message : String)
  | panics (message : String)
deriving DecidableEq, Repr

/-- Project options, from `next_api::project::ProjectOptions`. -/
structure ProjectOptions where
  root_path : String
  project_path : String
  watch : Bool
deriving DecidableEq, Repr

/-- Project state, from `next_api::project::Project`. The filesystem root is
embedded as the empty relative path, so `root_path` is `""` and
`project_path` is the project directory relative to the filesystem root
(`root.join(project_relative)` with `root = ""`). -/
structure Project where
  root_path : String
  project_path : String
deriving DecidableEq, Repr

/-- Embedding of Rust `str::strip_prefix` on strings: `some` of the remainder
when `pre` is a string prefix of `s`, and `none` otherwise. -/
def stripPrefixStr (pre s : String) : Option String :=
  if pre.data.isPrefixOf s.data then some ⟨s.data.drop pre.data.length⟩ else none

/-- Embedding of `ProjectVc::new` (next-api/src/project.rs, lines 72-90).
`options.project_path.strip_prefix(&options.root_path).unwrap()` panics
(embedded as `none`) when `root_path` is not a string prefix of
`project_path`; otherwise a leading path separator is stripped from the
remainder and the project path is joined onto the filesystem root.
`MAIN_SEPARATOR` is `'/'`, so the final `replace(MAIN_SEPARATOR, "/")` is the
identity. -/
def Project.new (options : ProjectOptions) : Option Project :=
  match stripPrefixStr options.root_path options.project_path with
  | none => none
  | some project_relative =>
    let project_relative :=
      match project_relative.data with
      | '/' :: rest => (⟨rest⟩ : String)
      | _ => project_relative
    some ⟨"", project_relative⟩

/-- Definition following the specification's words only (section 7,
ConfinementError): `project_path` is nested under the configured root when it
equals the root or lives strictly below it as a path. Used to compare the
spec's nesting criterion with the string-prefix check the code performs. -/
def specNestedUnder (root p : String) : Bool :=
  p == root || (root ++ "/").data.isPrefixOf p.data

/-- One leaf item of the pages directory tree, from
`next_core::pages_structure::PagesStructureItem`. Paths are embedded as the
strings the code reads out of them. -/
structure PagesStructureItem where
  next_router_path : String
  project_path : String
  original_path : String
deriving DecidableEq, Repr

/-- One directory of the pages directory tree, from
`next_core::pages_structure::PagesDirectoryStructure`: a list of leaf items,
a list of child directories, and the two path fields the route walk ignores.
-/
inductive PagesDirectoryStructure where
  | mk (items : List PagesStructureItem)
       (children : List PagesDirectoryStructure)
       (next_router_path : String)
       (project_path : String)

/-- Items of a pages directory. -/
def PagesDirectoryStructure.items : PagesDirectoryStructure → List PagesStructureItem
  | .mk items _ _ _ => items

/-- Children of a pages directory. -/
def PagesDirectoryStructure.children : PagesDirectoryStructure → List PagesDirectoryStructure
  | .mk _ children _ _ => children

mutual
/-- Size of a directory tree, used as the termination measure of the
route-collection worklist. -/
def dirSize : PagesDirectoryStructure → Nat
  | .mk _ children _ _ => 1 + dirsSize children
/-- Total size of a list of directory trees. -/
def dirsSize : List PagesDirectoryStructure → Nat
  | [] => 0
  | d :: ds => dirSize d + dirsSize ds
end

/-- The top-level pages structure, from
`next_core::pages_structure::PagesStructure`: the optional `pages/api`
subtree and the optional `pages` subtree (the fields destructured by
`get_pages_routes`). -/
structure PagesStructure where
  api : Option PagesDirectoryStructure
  pages : Option PagesDirectoryStructure

/-- Embedding of the worklist loop of `add_dir_to_routes`
(next-api/src/pages.rs, lines 34-63): pop a directory off the worklist,
record its leaf items in order, then push its children. The Rust `Vec` pops
from the back and pushes children in order, so the child pushed last is
popped first; with the worklist head as the stack top this is exactly
`children.reverse ++ rest`. Returns the leaf items in processing order. -/
def collectItems : List PagesDirectoryStructure → List PagesStructureItem
  | [] => []
  | dir :: rest => dir.items ++ collectItems (dir.children.reverse ++ rest)
termination_by queue => dirsSize queue
decreasing_by
  have happ : ∀ a b : List PagesDirectoryStructure,
      dirsSize (a ++ b) = dirsSize a + dirsSize b := by
    intro a b
    induction a with
    | nil => simp [dirsSize]
    | cons d ds ih => simp [dirsSize, ih]; omega
  have hrev : ∀ a : List PagesDirectoryStructure,
      dirsSize a.reverse = dirsSize a := by
    intro a
    induction a with
    | nil => rfl
    | cons d ds ih => simp [dirsSize, happ, ih]; omega
  have key : ∀ (d : PagesDirectoryStructure) (rest : List PagesDirectoryStructure),
      dirsSize (d.children.reverse ++ rest) < dirsSize (d :: rest) := by
    intro d rest
    cases d with
    | mk items children nrp pp =>
      simp only [dirsSize, dirSize, happ, hrev, PagesDirectoryStructure.children]
      omega
  exact key _ _

/-- Leaves of the `pages/api` subtree in worklist order. -/
def apiLeaves (s : PagesStructure) : List PagesStructureItem :=
  match s.api with
  | some dir => collectItems [dir]
  | none => []

/-- Leaves of the `pages` subtree in worklist order. -/
def pagesLeaves (s : PagesStructure) : List PagesStructureItem :=
  match s.pages with
  | some dir => collectItems [dir]
  | none => []

/-- Pathname of a leaf item: `format!("/{}", next_router_path.path)`. -/
def itemPathname (item : PagesStructureItem) : String :=
  "/" ++ item.next_router_path

/-- Original name of a leaf item: `format!("/{}", original_path.path)`. -/
def itemOriginalName (item : PagesStructureItem) : String :=
  "/" ++ item.original_path

/-- The HTML page endpoint, from `next_api::pages::PageHtmlEndpoint`. -/
structure PageHtmlEndpoint where
  project : Project
  pathname : String
  original_name : String
  path : String
deriving DecidableEq, Repr

/-- The page data endpoint, from `next_api::pages::PageDataEndpoint`. -/
structure PageDataEndpoint where
  project : Project
  pathname : String
  original_name : String
  path : String
deriving DecidableEq, Repr

/-- The API endpoint, from `next_api::pages::ApiEndpoint`. -/
structure ApiEndpoint where
  project : Project
  pathname : String
  original_name : String
  path : String
deriving DecidableEq, Repr

/-- The endpoint capability handle, from `next_api::route::EndpointVc`: one of
the three page/api endpoint variants of this crate, or an externally resolved
app-route endpoint (opaque identity). -/
inductive EndpointVc where
  | pageHtml (e : PageHtmlEndpoint)
  | pageData (e : PageDataEndpoint)
  | api (e : ApiEndpoint)
  | external (id : Nat)
deriving DecidableEq, Repr

/-- The route table entry, from `next_api::route::Route`. `page` and
`pageApi` carry the endpoints built in `get_pages_routes`; `conflict` is the
payload-free sentinel written on a pathname collision. The app-route variants
are produced by the external collaborator `app_entry_point_to_route` and are
embedded as an opaque identity. -/
inductive Route where
  | page (html_endpoint data_endpoint : EndpointVc)
  | pageApi (endpoint : EndpointVc)
  | appRoute (id : Nat)
  | conflict
deriving DecidableEq, Repr

/-- Lookup in an insertion-ordered association map: the value of the first
pair carrying the key. -/
def imLookup {K V : Type} [DecidableEq K] : List (K × V) → K → Option V
  | [], _ => none
  | (k, v) :: rest, p => if k = p then some v else imLookup rest p

/-- Replacement step of `imInsert`: rewrite the pair holding key `k` to carry
the value `v`, leaving every other pair untouched. -/
def imReplacePair {K V : Type} [DecidableEq K] (k : K) (v : V) (kv : K × V) :
    K × V :=
  if kv.1 = k then (k, v) else kv

/-- Embedding of `IndexMap::insert`: when the key is present the value is
replaced in place (keeping the entry's position), otherwise the pair is
appended at the end. -/
def imInsert {K V : Type} [DecidableEq K] (m : List (K × V)) (k : K) (v : V) :
    List (K × V) :=
  if (imLookup m k).isSome then
    m.map (imReplacePair k v)
  else
    m ++ [(k, v)]

/-- Embedding of `IndexMap::extend`: insert every pair in order. -/
def imExtend {K V : Type} [DecidableEq K] (m : List (K × V))
    (pairs : List (K × V)) : List (K × V) :=
  pairs.foldl (fun acc kv => imInsert acc kv.1 kv.2) m

/-- Keys of an insertion-ordered association map, in order. -/
def imKeys {K V : Type} (m : List (K × V)) : List K :=
  m.map Prod.fst

/-- The `(pathname, route)` pair the api closure of `get_pages_routes` builds
for one leaf: `Route::PageApi` with a fresh `ApiEndpointVc`. -/
def apiRoutePair (project : Project) (item : PagesStructureItem) :
    String × Route :=
  (itemPathname item,
   Route.pageApi (EndpointVc.api
     ⟨project, itemPathname item, itemOriginalName item, item.project_path⟩))

/-- The `(pathname, route)` pair the pages closure of `get_pages_routes`
builds for one leaf: `Route::Page` with fresh `PageHtmlEndpointVc` and
`PageDataEndpointVc`. -/
def pagesRoutePair (project : Project) (item : PagesStructureItem) :
    String × Route :=
  (itemPathname item,
   Route.page
     (EndpointVc.pageHtml
       ⟨project, itemPathname item, itemOriginalName item, item.project_path⟩)
     (EndpointVc.pageData
       ⟨project, itemPathname item, itemOriginalName item, item.project_path⟩))

/-- Embedding of `get_pages_routes` (next-api/src/pages.rs, lines 27-90):
walk the optional `api` subtree first, inserting a `PageApi` route per leaf,
then the optional `pages` subtree, inserting a `Page` route (HTML endpoint
plus data endpoint) per leaf. Each leaf performs `routes.insert(pathname,
route)` on the shared `IndexMap` (`imExtend` over the leaves in worklist
order); an absent subtree contributes no leaves. -/
def get_pages_routes (project : Project) (page_structure : PagesStructure) :
    List (String × Route) :=
  let routes : List (String × Route) := []
  let routes :=
    imExtend routes ((apiLeaves page_structure).map (apiRoutePair project))
  let routes :=
    imExtend routes ((pagesLeaves page_structure).map (pagesRoutePair project))
  routes

/-- The optional middleware descriptor, from `next_api::project::Middleware`.
Its endpoint and `NextSourceConfig` are external; both are embedded as opaque
identities. -/
structure Middleware where
  endpoint : Nat
  config : Nat
deriving DecidableEq, Repr

/-- The entrypoints value, from `next_api::project::Entrypoints`: the ordered
route table plus an optional middleware descriptor. -/
structure Entrypoints where
  routes : List (String × Route)
  middleware : Option Middleware

/-- Embedding of the `routes.entry(pathname)` match of `ProjectVc::entrypoints`
(next-api/src/project.rs, lines 121-128): an occupied entry is overwritten
with `Route::Conflict`, a vacant entry receives the page route. -/
def routesEntryInsert (acc : List (String × Route)) (pr : String × Route) :
    List (String × Route) :=
  if (imLookup acc pr.1).isSome then imInsert acc pr.1 Route.conflict
  else imInsert acc pr.1 pr.2

/-- Embedding of `ProjectVc::entrypoints` (next-api/src/project.rs, lines
95-136). The app-directory entries are resolved by external collaborators
(`find_app_dir`, `get_entrypoints`, `app_entry_point_to_route`) and arrive
here as the optional list of `(pathname, Route)` pairs; they are inserted
first with `IndexMap::extend`. Then every page-derived `(pathname, route)`
pair goes through `routes.entry(pathname)` (`routesEntryInsert`). Middleware
is not yet produced (`// TODO middleware`). -/
def Project.entrypoints (project : Project)
    (app_entrypoints : Option (List (String × Route)))
    (page_structure : PagesStructure) : Entrypoints :=
  let routes : List (String × Route) := []
  let routes :=
    match app_entrypoints with
    | some app => imExtend routes app
    | none => routes
  let routes :=
    (get_pages_routes project page_structure).foldl routesEntryInsert routes
  ⟨routes, none⟩

/-- Embedding of `PageHtmlEndpoint::write_to_disk` (next-api/src/pages.rs,
lines 121-148). The body builds the client module via external collaborators,
bails when `EcmascriptModuleAssetVc::resolve_from` yields `None`, computes
the client chunk group, and then hits `todo!()`; `resolveEcmascriptOk` stands
for the outcome of the external resolution. -/
def PageHtmlEndpoint.write_to_disk (_e : PageHtmlEndpoint)
    (resolveEcmascriptOk : Bool) : WriteOutcome :=
  if resolveEcmascriptOk then WriteOutcome.panics "not yet implemented"
  else WriteOutcome.failed "expected an ECMAScript module asset"

/-- Embedding of `PageDataEndpoint::write_to_disk` (next-api/src/pages.rs,
lines 185-188): the body is exactly `todo!()`. -/
def PageDataEndpoint.write_to_disk (_e : PageDataEndpoint) : WriteOutcome :=
  WriteOutcome.panics "not yet implemented"

/-- Embedding of `ApiEndpoint::write_to_disk` (next-api/src/pages.rs, lines
225-228): the body is exactly `todo!()`. -/
def ApiEndpoint.write_to_disk (_e : ApiEndpoint) : WriteOutcome :=
  WriteOutcome.panics "not yet implemented"

/-- Opaque module identity (external `turbopack` module handle). -/
abbrev ModuleRef := Nat

/-- Opaque root-chunk identity (external `turbopack` chunk handle). -/
abbrev ChunkRef := Nat

/-- Opaque output-asset identity (external `turbopack` output asset). -/
abbrev OutputAsset := Nat

/-- An Ecmascript client reference, from
`next_core::next_client_reference::EcmascriptClientReference`: a client
module and an SSR module. -/
structure EcmascriptClientReference where
  client_module : ModuleRef
  ssr_module : ModuleRef
deriving DecidableEq, Repr

/-- A CSS client reference, from
`next_core::next_client_reference::CssClientReference`: a client module
only. -/
structure CssClientReference where
  client_module : ModuleRef
deriving DecidableEq, Repr

/-- The client reference type, from
`next_core::next_client_reference::ClientReferenceType`. -/
inductive ClientReferenceType where
  | ecmascriptClientReference (r : EcmascriptClientReference)
  | cssClientReference (r : CssClientReference)
deriving DecidableEq, Repr

/-- Chunks computed for one client reference, from
`next_build::next_app::app_client_reference::ClientReferenceChunks`. -/
structure ClientReferenceChunks where
  client_chunks : List OutputAsset
  ssr_chunks : List OutputAsset
deriving DecidableEq, Repr

/-- Embedding of `compute_app_client_references_chunks`
(next-build/src/next_app/app_client_reference.rs, lines 21-80). The chunking
contexts are external capabilities, embedded as the four function parameters
(`as_root_chunk` and `chunk_group` for the client and SSR contexts). Per
reference: an Ecmascript reference builds a client root chunk from its client
module and an SSR root chunk from its SSR module and expands both into chunk
groups; a CSS reference builds only the client chunk group, its SSR side
being `OutputAssetsVc::empty()`. The resulting map is collected into an
`IndexMap`; a second pass folds every produced chunk into the shared
`all_chunks` accumulator (client then SSR for Ecmascript references, client
only for CSS references). This definition is the per-reference match. -/
def clientReferenceChunksFor
    (clientRootChunk : ModuleRef → ChunkRef)
    (clientChunkGroup : ChunkRef → List OutputAsset)
    (ssrRootChunk : ModuleRef → ChunkRef)
    (ssrChunkGroup : ChunkRef → List OutputAsset) :
    ClientReferenceType → ClientReferenceChunks
  | ClientReferenceType.ecmascriptClientReference r =>
    ⟨clientChunkGroup (clientRootChunk r.client_module),
     ssrChunkGroup (ssrRootChunk r.ssr_module)⟩
  | ClientReferenceType.cssClientReference r =>
    ⟨clientChunkGroup (clientRootChunk r.client_module), []⟩

/-- Body of `compute_app_client_references_chunks`; see
`clientReferenceChunksFor` for the per-reference match. -/
def compute_app_client_references_chunks
    (app_client_reference_types : List ClientReferenceType)
    (clientRootChunk : ModuleRef → ChunkRef)
    (clientChunkGroup : ChunkRef → List OutputAsset)
    (ssrRootChunk : ModuleRef → ChunkRef)
    (ssrChunkGroup : ChunkRef → List OutputAsset)
    (all_chunks : List OutputAsset) :
    List (ClientReferenceType × ClientReferenceChunks) × List OutputAsset :=
  let m :=
    imExtend [] (app_client_reference_types.map (fun ty =>
      (ty, clientReferenceChunksFor clientRootChunk clientChunkGroup
        ssrRootChunk ssrChunkGroup ty)))
  let all_chunks :=
    m.foldl (fun acc p =>
      match p.1 with
      | ClientReferenceType.ecmascriptClientReference _ =>
        acc ++ p.2.client_chunks ++ p.2.ssr_chunks
      | ClientReferenceType.cssClientReference _ =>
        acc ++ p.2.client_chunks)
      all_chunks
  (m, all_chunks)

/-- A filesystem path: the name of the owning filesystem plus the path
segments below its root. -/
structure FsPath where
  fs : String
  segments : List String
deriving DecidableEq, Repr

/-- Join path segments below a path. -/
def fsJoinSegs (p : FsPath) (segs : List String) : FsPath :=
  ⟨p.fs, p.segments ++ segs⟩

/-- Modelled from the spec: `FileSystemPath::is_inside` lives in the external
`turbo-tasks-fs` collaborator; a path lies inside a root when it belongs to
the same filesystem and the root's segments are a prefix of its segments
(section 4.5: "asset path lies under the server/node output root"). -/
def isInside (p root : FsPath) : Bool :=
  p.fs == root.fs && root.segments.isPrefixOf p.segments

/-- Modelled from the spec: `rebase` lives in the external `turbo-tasks-fs`
collaborator; rebasing strips the old prefix from the path and reattaches
the remainder under the new root (section 4.5: "rewrite the path to strip
the namespace prefix and write into the client output root"). -/
def rebase (p src dst : FsPath) : FsPath :=
  ⟨dst.fs, dst.segments ++ p.segments.drop src.segments.length⟩

/-- Modelled from the spec: the graph engine behind `all_assets_from_entries`
(`turbo_tasks::graph::{AdjacencyMap, GraphTraversal}` with
`skip_duplicates`) is an external collaborator; per section 4.5 it is a
worklist traversal from the root set that skips any node already visited
(visited set keyed by asset identity). Nodes are the assets `Fin n`; `refs`
resolves each asset's primary references (`get_referenced_assets`). -/
def bfs {n : Nat} (refs : Fin n → List (Fin n)) :
    List (Fin n) → Finset (Fin n) → List (Fin n)
  | [], _ => []
  | a :: ws, visited =>
    if a ∈ visited then bfs refs ws visited
    else a :: bfs refs (ws ++ refs a) (insert a visited)
termination_by ws visited => ((Finset.univ \ visited).card, ws.length)
decreasing_by
  · apply Prod.Lex.right
    simp
  · apply Prod.Lex.left
    apply Finset.card_lt_card
    constructor
    · exact Finset.sdiff_subset_sdiff (le_refl _) (Finset.subset_insert _ _)
    · intro hsub
      have ha : a ∈ Finset.univ \ visited := by
        simp only [Finset.mem_sdiff, Finset.mem_univ, true_and]
        assumption
      have hcontra := hsub ha
      simp at hcontra

/-- Embedding of `all_assets_from_entries` (next-build/src/next_build.rs,
lines 550-565): collect every asset transitively reachable from the entry
chunks, visiting each asset once. -/
def all_assets_from_entries {n : Nat} (refs : Fin n → List (Fin n))
    (entries : List (Fin n)) : List (Fin n) :=
  bfs refs entries ∅

/-- Embedding of the per-asset closure of `emit_all_assets`
(next-build/src/next_build.rs, lines 504-534): the first matching rule
applies — a path inside the node root is written verbatim (`emit`),
otherwise a path inside the client-relative namespace is written rebased
onto the client output path (`emit_rebase`), otherwise nothing is written
(`CompletionVc::immutable()`). Each write is recorded as (target path,
asset). -/
def emitAssetWrite {n : Nat} (assetPath : Fin n → FsPath)
    (node_root client_relative_path client_output_path : FsPath)
    (asset : Fin n) : Option (FsPath × Fin n) :=
  if isInside (assetPath asset) node_root then
    some (assetPath asset, asset)
  else if isInside (assetPath asset) client_relative_path then
    some (rebase (assetPath asset) client_relative_path client_output_path,
          asset)
  else none

/-- Embedding of the body of `emit_all_assets`: the per-asset writes over the
collected asset set, in collection order. -/
def emit_all_assets {n : Nat} (refs : Fin n → List (Fin n))
    (chunks : List (Fin n)) (assetPath : Fin n → FsPath)
    (node_root client_relative_path client_output_path : FsPath) :
    List (FsPath × Fin n) :=
  (all_assets_from_entries refs chunks).filterMap
    (emitAssetWrite assetPath node_root client_relative_path
      client_output_path)

/-- One diagnostic, carrying whether the issue reporter classifies it as
fatal. -/
structure Issue where
  message : String
  fatal : Bool
deriving DecidableEq, Repr

/-- Modelled from the spec: `IssueReporterVc::report_issues` (external
`ConsoleUi` collaborator) reports every collected issue and returns whether
any of them is fatal (section 4.4 phase 2 and section 7, FatalDiagnostic). -/
def hasFatal (issues : List Issue) : Bool :=
  issues.any (fun i => i.fatal)

/-- The legacy build context, from `next_build::build_options::BuildContext`:
a build id plus route rewrites (the rewrites document is embedded opaquely as
its serialized form). -/
structure BuildContext where
  build_id : String
  rewrites : String
deriving DecidableEq, Repr

/-- The client build manifest, from `next_build::manifests`: the rewrites,
the sorted page list, and the per-page dependency map. -/
structure ClientBuildManifest where
  rewrites : String
  sorted_pages : List String
  pages : List (String × List String)
deriving DecidableEq, Repr

/-- Content of one file write issued by the build. -/
inductive WContent where
  | pagesManifestDoc (pages : List (String × String))
  | buildManifestDoc (low_priority_files : List String)
  | clientManifestDoc (m : ClientBuildManifest)
  | jsonDoc (name : String)
  | rawText (s : String)
  | assetContent (id : Nat)
deriving DecidableEq, Repr

/-- Terminal outcome of `next_build`. -/
inductive BuildOutcome where
  | ok
  | failed (message : String)
deriving DecidableEq, Repr

/-- Observable result of one `next_build` run: every issue handed to the
issue reporter, every file write issued, and the terminal outcome. -/
structure BuildResult where
  reported : List Issue
  writes : List (FsPath × WContent)
  outcome : BuildOutcome
deriving DecidableEq, Repr

/-- Inputs of one `next_build` run. The issue lists are the diagnostics
collected from page-entry and app-entry discovery; the pages manifest content
is produced by the external `compute_page_entries_chunks`; `sortRoutes`
stands for the external `next_core::url_node::get_sorted_routes`; the asset
graph is the chunk set with its reference function and per-asset paths. -/
structure BuildInputs (n : Nat) where
  pageIssues : List Issue
  appIssues : List Issue
  pagesManifestPages : List (String × String)
  buildContext : Option BuildContext
  chunks : List (Fin n)
  refs : Fin n → List (Fin n)
  assetPath : Fin n → FsPath
  sortRoutes : List String → List String

/-- The node output root: `node_fs.root().join(".next")`. -/
def nodeRoot : FsPath := ⟨"node", [".next"]⟩

/-- The client output root: `client_fs.root().join(".next")`. -/
def clientRoot : FsPath := ⟨"client", [".next"]⟩

/-- The client-relative namespace: `client_root.join("_next")`. -/
def clientRelativePath : FsPath := ⟨"client", [".next", "_next"]⟩

/-- Content of the legacy SSG manifest runtime snippet. -/
def ssgManifestContent : String :=
  "self.__SSG_MANIFEST=new Set;self.__SSG_MANIFEST_CB&&self.__SSG_MANIFEST_CB()"

/-- Embedding of the per-page loop body of the legacy build-context block of
`next_build` (next-build/src/next_build.rs, lines 359-392): sort the
pages-manifest keys with the external `get_sorted_routes`, take the
dependency of `/_app` as the set of dependencies every page already has,
then walk the sorted pages — skipping the literal page name `_app` — and
record, for each page, its dependencies with the `_app` dependencies
filtered out, keeping only pages with a non-empty filtered list. -/
def clientManifestPageStep (pagesManifestPages : List (String × String))
    (acc : List (String × List String)) (page : String) :
    List (String × List String) :=
  if page = "_app" then acc
  else
    let dependencies :=
      (imLookup pagesManifestPages page).toList.filter
        (fun dep => ¬ dep ∈ (imLookup pagesManifestPages "/_app").toList)
    if dependencies = [] then acc
    else imInsert acc page dependencies

/-- Assembly of the `ClientBuildManifest` value of the legacy block: the
sorted page list and the per-page map folded by `clientManifestPageStep`. -/
def computeClientBuildManifest (sortRoutes : List String → List String)
    (pagesManifestPages : List (String × String)) (rewrites : String) :
    ClientBuildManifest :=
  let sorted_pages := sortRoutes (imKeys pagesManifestPages)
  let pages :=
    sorted_pages.foldl (clientManifestPageStep pagesManifestPages) []
  ⟨rewrites, sorted_pages, pages⟩

/-- Embedding of `next_build` (next-build/src/next_build.rs, lines 64-455),
restricted to its observable reporting and write behavior. Page-entry and
app-entry diagnostics are checked in order by `handle_issues` (lines
158-159): each check reports every issue of its source and aborts with
`Err("Fatal issue(s) occurred")` when any is fatal. Only after both checks
pass does the build assemble the legacy artifacts (when a build context is
supplied), write the four populated manifests and the five placeholder
manifests, and emit the deduplicated asset graph. -/
def nextBuild {n : Nat} (inp : BuildInputs n) : BuildResult :=
  if hasFatal inp.pageIssues then
    ⟨inp.pageIssues, [], BuildOutcome.failed "Fatal issue(s) occurred"⟩
  else if hasFatal inp.appIssues then
    ⟨inp.pageIssues ++ inp.appIssues, [],
     BuildOutcome.failed "Fatal issue(s) occurred"⟩
  else
    let legacy :=
      match inp.buildContext with
      | none => (([] : List (FsPath × WContent)), ([] : List String))
      | some ctx =>
        let ssg_manifest_path := ["static", ctx.build_id, "_ssgManifest.js"]
        let client_manifest :=
          computeClientBuildManifest inp.sortRoutes inp.pagesManifestPages
            ctx.rewrites
        let client_manifest_path :=
          ["static", ctx.build_id, "_buildManifest.js"]
        ([(fsJoinSegs nodeRoot ssg_manifest_path,
           WContent.rawText ssgManifestContent),
          (fsJoinSegs nodeRoot client_manifest_path,
           WContent.clientManifestDoc client_manifest)],
         [String.intercalate "/" ssg_manifest_path,
          String.intercalate "/" client_manifest_path])
    let manifestWrites : List (FsPath × WContent) :=
      [(fsJoinSegs nodeRoot ["server", "pages-manifest.json"],
        WContent.pagesManifestDoc inp.pagesManifestPages),
       (fsJoinSegs clientRoot ["app-build-manifest.json"],
        WContent.jsonDoc "app-build-manifest"),
       (fsJoinSegs nodeRoot ["server", "app-paths-manifest.json"],
        WContent.jsonDoc "app-paths-manifest"),
       (fsJoinSegs clientRoot ["build-manifest.json"],
        WContent.buildManifestDoc legacy.2),
       (fsJoinSegs nodeRoot ["server", "middleware-manifest.json"],
        WContent.jsonDoc "middleware-manifest"),
       (fsJoinSegs nodeRoot ["server", "next-font-manifest.json"],
        WContent.jsonDoc "next-font-manifest"),
       (fsJoinSegs nodeRoot ["server", "font-manifest.json"],
        WContent.jsonDoc "font-manifest"),
       (fsJoinSegs nodeRoot ["server", "server-reference-manifest.json"],
        WContent.jsonDoc "server-reference-manifest"),
       (fsJoinSegs nodeRoot ["react-loadable-manifest.json"],
        WContent.jsonDoc "react-loadable-manifest")]
    let emitWrites :=
      (emit_all_assets inp.refs inp.chunks inp.assetPath nodeRoot
        clientRelativePath clientRoot).map
        (fun w => (w.1, WContent.assetContent w.2.val))
    ⟨inp.pageIssues ++ inp.appIssues,
     legacy.1 ++ manifestWrites ++ emitWrites,
     BuildOutcome.ok⟩

/-! ## Lemmas about the insertion-ordered map embedding -/

theorem imLookup_nil {K V : Type} [DecidableEq K] (p : K) :
    imLookup ([] : List (K × V)) p = none := rfl

theorem imLookup_cons {K V : Type} [DecidableEq K]
    (k : K) (v : V) (rest : List (K × V)) (p : K) :
    imLookup ((k, v) :: rest) p = if k = p then some v else imLookup rest p :=
  rfl

theorem imReplacePair_apply {K V : Type} [DecidableEq K]
    (k : K) (v : V) (k' : K) (v' : V) :
    imReplacePair k v (k', v') = if k' = k then (k, v) else (k', v') := rfl

theorem imLookup_replace_ne {K V : Type} [DecidableEq K]
    (m : List (K × V)) (k : K) (v : V) (p : K) (hpk : p ≠ k) :
    imLookup (m.map (imReplacePair k v)) p = imLookup m p := by
  induction m with
  | nil => rfl
  | cons kv rest ih =>
    obtain ⟨k', v'⟩ := kv
    rw [List.map_cons, imReplacePair_apply]
    by_cases hk : k' = k
    · rw [if_pos hk, imLookup_cons, imLookup_cons,
        if_neg (fun h : k = p => hpk h.symm),
        if_neg (fun h : k' = p => hpk (hk ▸ h).symm), ih]
    · rw [if_neg hk, imLookup_cons, imLookup_cons]
      by_cases hp : k' = p
      · rw [if_pos hp, if_pos hp]
      · rw [if_neg hp, if_neg hp, ih]

theorem imLookup_append_single_ne {K V : Type} [DecidableEq K]
    (m : List (K × V)) (k : K) (v : V) (p : K) (hpk : p ≠ k) :
    imLookup (m ++ [(k, v)]) p = imLookup m p := by
  induction m with
  | nil =>
    rw [List.nil_append, imLookup_cons, if_neg (fun h : k = p => hpk h.symm)]
  | cons kv rest ih =>
    obtain ⟨k', v'⟩ := kv
    rw [List.cons_append, imLookup_cons, imLookup_cons]
    by_cases hp : k' = p
    · rw [if_pos hp, if_pos hp]
    · rw [if_neg hp, if_neg hp, ih]

theorem imLookup_insert_ne {K V : Type} [DecidableEq K]
    (m : List (K × V)) (k : K) (v : V) (p : K) (hpk : p ≠ k) :
    imLookup (imInsert m k v) p = imLookup m p := by
  unfold imInsert
  split
  · exact imLookup_replace_ne m k v p hpk
  · exact imLookup_append_single_ne m k v p hpk

theorem imLookup_replace_self {K V : Type} [DecidableEq K]
    (m : List (K × V)) (k : K) (v : V) :
    (imLookup m k).isSome = true →
      imLookup (m.map (imReplacePair k v)) k = some v := by
  induction m with
  | nil => intro h; simp [imLookup] at h
  | cons kv rest ih =>
    intro h
    obtain ⟨k', v'⟩ := kv
    rw [List.map_cons, imReplacePair_apply]
    by_cases hk : k' = k
    · rw [if_pos hk, imLookup_cons, if_pos rfl]
    · rw [imLookup_cons, if_neg hk] at h
      rw [if_neg hk, imLookup_cons, if_neg hk]
      exact ih h

theorem imLookup_append_single_self {K V : Type} [DecidableEq K]
    (m : List (K × V)) (k : K) (v : V) :
    ¬ (imLookup m k).isSome = true → imLookup (m ++ [(k, v)]) k = some v := by
  induction m with
  | nil => intro _; rw [List.nil_append, imLookup_cons, if_pos rfl]
  | cons kv rest ih =>
    intro h
    obtain ⟨k', v'⟩ := kv
    by_cases hk : k' = k
    · rw [imLookup_cons, if_pos hk] at h
      simp at h
    · rw [imLookup_cons, if_neg hk] at h
      rw [List.cons_append, imLookup_cons, if_neg hk]
      exact ih h

theorem imLookup_insert_self {K V : Type} [DecidableEq K]
    (m : List (K × V)) (k : K) (v : V) :
    imLookup (imInsert m k v) k = some v := by
  unfold imInsert
  split
  case isTrue h => exact imLookup_replace_self m k v h
  case isFalse h => exact imLookup_append_single_self m k v h

theorem imLookup_isSome_iff_mem {K V : Type} [DecidableEq K]
    (m : List (K × V)) (p : K) :
    (imLookup m p).isSome = true ↔ p ∈ imKeys m := by
  induction m with
  | nil => simp [imLookup, imKeys]
  | cons kv rest ih =>
    obtain ⟨k', v'⟩ := kv
    by_cases hp : k' = p
    · rw [imLookup_cons, if_pos hp]
      simp [imKeys, hp]
    · rw [imLookup_cons, if_neg hp]
      simp only [imKeys, List.map_cons, List.mem_cons]
      constructor
      · intro h
        exact Or.inr (ih.mp h)
      · intro h
        rcases h with h | h
        · exact absurd h.symm hp
        · exact ih.mpr h

theorem imKeys_replace {K V : Type} [DecidableEq K]
    (m : List (K × V)) (k : K) (v : V) :
    imKeys (m.map (imReplacePair k v)) = imKeys m := by
  induction m with
  | nil => rfl
  | cons kv rest ih =>
    obtain ⟨k', v'⟩ := kv
    rw [List.map_cons, imReplacePair_apply]
    by_cases hk : k' = k
    · rw [if_pos hk]
      simp only [imKeys, List.map_cons] at ih ⊢
      rw [hk, ih]
    · rw [if_neg hk]
      simp only [imKeys, List.map_cons] at ih ⊢
      rw [ih]

theorem imKeys_insert {K V : Type} [DecidableEq K]
    (m : List (K × V)) (k : K) (v : V) (p : K) :
    p ∈ imKeys (imInsert m k v) ↔ p = k ∨ p ∈ imKeys m := by
  unfold imInsert
  split
  case isTrue h =>
    rw [imKeys_replace]
    have hk : k ∈ imKeys m := (imLookup_isSome_iff_mem m k).mp h
    constructor
    · exact fun hp => Or.inr hp
    · intro hp
      rcases hp with rfl | hp
      · exact hk
      · exact hp
  case isFalse h =>
    simp only [imKeys, List.map_append, List.map_cons, List.map_nil,
      List.mem_append, List.mem_cons, List.not_mem_nil, or_false]
    tauto

theorem imExtend_cons {K V : Type} [DecidableEq K]
    (m : List (K × V)) (k : K) (w : V) (rest : List (K × V)) :
    imExtend m ((k, w) :: rest) = imExtend (imInsert m k w) rest := rfl

theorem imExtend_lookup_not_mem {K V : Type} [DecidableEq K]
    (pairs : List (K × V)) (m : List (K × V)) (p : K)
    (hp : ¬ p ∈ imKeys pairs) :
    imLookup (imExtend m pairs) p = imLookup m p := by
  induction pairs generalizing m with
  | nil => rfl
  | cons kv rest ih =>
    obtain ⟨k, w⟩ := kv
    simp only [imKeys, List.map_cons, List.mem_cons] at hp
    push_neg at hp
    rw [imExtend_cons, ih (imInsert m k w) (by simpa [imKeys] using hp.2),
      imLookup_insert_ne m k w p hp.1]

theorem imExtend_lookup_mem_nodup {K V : Type} [DecidableEq K]
    (pairs : List (K × V)) (m : List (K × V)) (p : K) (v : V)
    (hnd : (imKeys pairs).Nodup) (hmem : (p, v) ∈ pairs) :
    imLookup (imExtend m pairs) p = some v := by
  induction pairs generalizing m with
  | nil => simp at hmem
  | cons kv rest ih =>
    obtain ⟨k, w⟩ := kv
    simp only [imKeys, List.map_cons, List.nodup_cons] at hnd
    rw [List.mem_cons] at hmem
    rcases hmem with heq | hmem
    · rw [Prod.mk.injEq] at heq
      obtain ⟨h1, h2⟩ := heq
      subst h1
      subst h2
      rw [imExtend_cons,
        imExtend_lookup_not_mem rest _ p (by simpa [imKeys] using hnd.1)]
      exact imLookup_insert_self m p v
    · rw [imExtend_cons]
      exact ih (imInsert m k w) hnd.2 hmem

theorem imKeys_extend {K V : Type} [DecidableEq K]
    (pairs : List (K × V)) (m : List (K × V)) (p : K) :
    p ∈ imKeys (imExtend m pairs) ↔ p ∈ imKeys m ∨ p ∈ imKeys pairs := by
  induction pairs generalizing m with
  | nil => simp [imExtend, imKeys]
  | cons kv rest ih =>
    obtain ⟨k, w⟩ := kv
    rw [imExtend_cons, ih, imKeys_insert]
    simp only [imKeys, List.map_cons, List.mem_cons]
    tauto

/-! ## Lemmas about route merging -/

theorem routesEntryInsert_lookup_ne (m : List (String × Route))
    (pr : String × Route) (p : String) (hp : p ≠ pr.1) :
    imLookup (routesEntryInsert m pr) p = imLookup m p := by
  unfold routesEntryInsert
  split
  · exact imLookup_insert_ne m pr.1 Route.conflict p hp
  · exact imLookup_insert_ne m pr.1 pr.2 p hp

theorem routesFold_preserves_conflict (prs : List (String × Route))
    (m : List (String × Route)) (p : String)
    (h : imLookup m p = some Route.conflict) :
    imLookup (prs.foldl routesEntryInsert m) p = some Route.conflict := by
  induction prs generalizing m with
  | nil => exact h
  | cons pr rest ih =>
    rw [List.foldl_cons]
    apply ih
    obtain ⟨q, r⟩ := pr
    by_cases hq : q = p
    · subst hq
      have hs : (imLookup m q).isSome = true := by rw [h]; rfl
      unfold routesEntryInsert
      rw [if_pos hs]
      exact imLookup_insert_self m q Route.conflict
    · rw [routesEntryInsert_lookup_ne m (q, r) p (fun he => hq he.symm)]
      exact h

theorem routesFold_mem_conflict (prs : List (String × Route))
    (m : List (String × Route)) (p : String)
    (hkeys : p ∈ imKeys m) (hwit : ∃ r, (p, r) ∈ prs) :
    imLookup (prs.foldl routesEntryInsert m) p = some Route.conflict := by
  induction prs generalizing m with
  | nil => simp at hwit
  | cons pr rest ih =>
    obtain ⟨q, r⟩ := pr
    rw [List.foldl_cons]
    by_cases hq : q = p
    · subst hq
      have hs : (imLookup m q).isSome = true :=
        (imLookup_isSome_iff_mem m q).mpr hkeys
      have hstep : routesEntryInsert m (q, r) = imInsert m q Route.conflict := by
        unfold routesEntryInsert
        rw [if_pos hs]
      rw [hstep]
      exact routesFold_preserves_conflict rest _ q
        (imLookup_insert_self m q Route.conflict)
    · obtain ⟨r', hr'⟩ := hwit
      rw [List.mem_cons] at hr'
      rcases hr' with heq | hr'
      · rw [Prod.mk.injEq] at heq
        exact absurd heq.1.symm hq
      · refine ih (routesEntryInsert m (q, r)) ?_ ⟨r', hr'⟩
        unfold routesEntryInsert
        split
        · exact (imKeys_insert m q Route.conflict p).mpr (Or.inr hkeys)
        · exact (imKeys_insert m q r p).mpr (Or.inr hkeys)

theorem imKeys_get_pages_routes (project : Project) (s : PagesStructure)
    (p : String) :
    p ∈ imKeys (get_pages_routes project s) ↔
      p ∈ (apiLeaves s).map itemPathname ∨ p ∈ (pagesLeaves s).map itemPathname := by
  show p ∈ imKeys (imExtend (imExtend [] ((apiLeaves s).map (apiRoutePair project)))
    ((pagesLeaves s).map (pagesRoutePair project))) ↔ _
  rw [imKeys_extend, imKeys_extend]
  have hapi : imKeys ((apiLeaves s).map (apiRoutePair project))
      = (apiLeaves s).map itemPathname := by
    simp only [imKeys, List.map_map]
    rfl
  have hpages : imKeys ((pagesLeaves s).map (pagesRoutePair project))
      = (pagesLeaves s).map itemPathname := by
    simp only [imKeys, List.map_map]
    rfl
  rw [hapi, hpages]
  simp [imKeys]

/-- C1. For every entrypoint-discovery invocation, a pathname claimed both by
an app-derived route and by a page-derived route is mapped to the
payload-free `Route.conflict` sentinel; since the hypotheses only constrain
membership, the outcome is invariant under permuting the app-derived entries
and under permuting the page/api leaves within the pages source. -/
theorem app_pages_pathname_collision_yields_conflict
    (project : Project) (app : List (String × Route)) (ps : PagesStructure)
    (p : String)
    (happ : p ∈ imKeys app)
    (hpages : p ∈ imKeys (get_pages_routes project ps)) :
    imLookup (Project.entrypoints project (some app) ps).routes p
      = some Route.conflict
    ∧ (∀ app2 : List (String × Route), app2.Perm app →
        imLookup (Project.entrypoints project (some app2) ps).routes p
          = some Route.conflict)
    ∧ (∀ ps2 : PagesStructure,
        (apiLeaves ps2).Perm (apiLeaves ps) →
        (pagesLeaves ps2).Perm (pagesLeaves ps) →
        imLookup (Project.entrypoints project (some app) ps2).routes p
          = some Route.conflict) := by
  have main : ∀ (app' : List (String × Route)) (ps' : PagesStructure),
      p ∈ imKeys app' → p ∈ imKeys (get_pages_routes project ps') →
      imLookup (Project.entrypoints project (some app') ps').routes p
        = some Route.conflict := by
    intro app' ps' h1 h2
    show imLookup ((get_pages_routes project ps').foldl routesEntryInsert
      (imExtend [] app')) p = some Route.conflict
    apply routesFold_mem_conflict
    · exact (imKeys_extend app' [] p).mpr (Or.inr h1)
    · simp only [imKeys, List.mem_map] at h2
      obtain ⟨⟨a, r⟩, hmem, hfst⟩ := h2
      have ha : a = p := hfst
      exact ⟨r, ha ▸ hmem⟩
  refine ⟨main app ps happ hpages, ?_, ?_⟩
  · intro app2 hperm
    apply main app2 ps _ hpages
    have : imKeys app2 = List.map Prod.fst app2 := rfl
    exact (hperm.map Prod.fst).mem_iff.mpr happ
  · intro ps2 hapi hpgs
    apply main app ps2 happ
    rw [imKeys_get_pages_routes]
    rw [imKeys_get_pages_routes] at hpages
    rcases hpages with h | h
    · exact Or.inl ((hapi.map itemPathname).mem_iff.mpr h)
    · exact Or.inr ((hpgs.map itemPathname).mem_iff.mpr h)

/-- Witness for C1 at a concrete input: the app source defines `/foo` and the
pages source holds a leaf with router path `foo`; the entrypoint table maps
`/foo` to `Route.conflict`. -/
theorem app_pages_pathname_collision_yields_conflict_witness :
    "/foo" ∈ imKeys [("/foo", Route.appRoute 0)]
    ∧ "/foo" ∈ imKeys (get_pages_routes ⟨"", "p"⟩
        ⟨none, some (.mk [⟨"foo", "pages/foo.js", "foo.js"⟩] [] "" "")⟩)
    ∧ imLookup (Project.entrypoints ⟨"", "p"⟩ (some [("/foo", Route.appRoute 0)])
        ⟨none, some (.mk [⟨"foo", "pages/foo.js", "foo.js"⟩] [] "" "")⟩).routes
        "/foo" = some Route.conflict := by
  have h1 : "/foo" ∈ imKeys [("/foo", Route.appRoute 0)] := by
    simp [imKeys]
  have h2 : "/foo" ∈ imKeys (get_pages_routes ⟨"", "p"⟩
      ⟨none, some (.mk [⟨"foo", "pages/foo.js", "foo.js"⟩] [] "" "")⟩) := by
    rw [imKeys_get_pages_routes]
    right
    simp [pagesLeaves, collectItems, PagesDirectoryStructure.items,
      PagesDirectoryStructure.children, itemPathname]
  exact ⟨h1, h2,
    (app_pages_pathname_collision_yields_conflict ⟨"", "p"⟩ _ _ "/foo" h1 h2).1⟩

theorem get_pages_routes_eq (project : Project) (s : PagesStructure) :
    get_pages_routes project s
      = imExtend (imExtend [] ((apiLeaves s).map (apiRoutePair project)))
          ((pagesLeaves s).map (pagesRoutePair project)) := rfl

theorem imKeys_map_apiRoutePair (project : Project)
    (L : List PagesStructureItem) :
    imKeys (L.map (apiRoutePair project)) = L.map itemPathname := by
  simp only [imKeys, List.map_map]
  rfl

theorem imKeys_map_pagesRoutePair (project : Project)
    (L : List PagesStructureItem) :
    imKeys (L.map (pagesRoutePair project)) = L.map itemPathname := by
  simp only [imKeys, List.map_map]
  rfl

/-- C10. Entrypoint resolution never produces a middleware descriptor: the
`Entrypoints` value always carries `middleware = none` (`// TODO middleware`
in `ProjectVc::entrypoints`). -/
theorem entrypoints_middleware_always_none (project : Project)
    (app_entrypoints : Option (List (String × Route)))
    (ps : PagesStructure) :
    (Project.entrypoints project app_entrypoints ps).middleware = none := by
  cases app_entrypoints <;> rfl

/-- Witness for C10 at a concrete input. -/
theorem entrypoints_middleware_always_none_witness :
    (Project.entrypoints ⟨"", "p"⟩ none ⟨none, none⟩).middleware = none :=
  entrypoints_middleware_always_none ⟨"", "p"⟩ none ⟨none, none⟩

/-- C9 (amended). For pages structures whose leaf pathnames are pairwise
distinct within the api source and within the pages source, the
pathname-to-route mapping of `get_pages_routes` is invariant under permuting
the leaves within each source. -/
theorem pages_routes_order_independent_for_distinct_pathnames
    (project : Project) (s1 s2 : PagesStructure)
    (hapi : (apiLeaves s2).Perm (apiLeaves s1))
    (hpgs : (pagesLeaves s2).Perm (pagesLeaves s1))
    (hndapi : ((apiLeaves s1).map itemPathname).Nodup)
    (hndpgs : ((pagesLeaves s1).map itemPathname).Nodup) :
    ∀ p, imLookup (get_pages_routes project s2) p
        = imLookup (get_pages_routes project s1) p := by
  intro p
  have hndpgs2 : ((pagesLeaves s2).map itemPathname).Nodup :=
    ((hpgs.map itemPathname).nodup_iff).mpr hndpgs
  have hndapi2 : ((apiLeaves s2).map itemPathname).Nodup :=
    ((hapi.map itemPathname).nodup_iff).mpr hndapi
  rw [get_pages_routes_eq project s1, get_pages_routes_eq project s2]
  by_cases hp2 : p ∈ (pagesLeaves s1).map itemPathname
  · obtain ⟨item, hitem, hip⟩ := List.mem_map.mp hp2
    have hpair : pagesRoutePair project item
        = (p, (pagesRoutePair project item).2) := by
      rw [← hip]
      rfl
    have h1 : (p, (pagesRoutePair project item).2)
        ∈ (pagesLeaves s1).map (pagesRoutePair project) := by
      rw [← hpair]
      exact List.mem_map_of_mem (pagesRoutePair project) hitem
    have h2 : (p, (pagesRoutePair project item).2)
        ∈ (pagesLeaves s2).map (pagesRoutePair project) :=
      ((hpgs.map (pagesRoutePair project)).mem_iff).mpr h1
    rw [imExtend_lookup_mem_nodup ((pagesLeaves s2).map (pagesRoutePair project))
        _ p _ (by rw [imKeys_map_pagesRoutePair]; exact hndpgs2) h2,
      imExtend_lookup_mem_nodup ((pagesLeaves s1).map (pagesRoutePair project))
        _ p _ (by rw [imKeys_map_pagesRoutePair]; exact hndpgs) h1]
  · have hp2' : ¬ p ∈ (pagesLeaves s2).map itemPathname := fun h =>
      hp2 (((hpgs.map itemPathname).mem_iff).mp h)
    have k1 : ¬ p ∈ imKeys ((pagesLeaves s1).map (pagesRoutePair project)) := by
      rw [imKeys_map_pagesRoutePair]
      exact hp2
    have k2 : ¬ p ∈ imKeys ((pagesLeaves s2).map (pagesRoutePair project)) := by
      rw [imKeys_map_pagesRoutePair]
      exact hp2'
    rw [imExtend_lookup_not_mem ((pagesLeaves s2).map (pagesRoutePair project))
        _ p k2,
      imExtend_lookup_not_mem ((pagesLeaves s1).map (pagesRoutePair project))
        _ p k1]
    by_cases hp1 : p ∈ (apiLeaves s1).map itemPathname
    · obtain ⟨item, hitem, hip⟩ := List.mem_map.mp hp1
      have hpair : apiRoutePair project item
          = (p, (apiRoutePair project item).2) := by
        rw [← hip]
        rfl
      have h1 : (p, (apiRoutePair project item).2)
          ∈ (apiLeaves s1).map (apiRoutePair project) := by
        rw [← hpair]
        exact List.mem_map_of_mem (apiRoutePair project) hitem
      have h2 : (p, (apiRoutePair project item).2)
          ∈ (apiLeaves s2).map (apiRoutePair project) :=
        ((hapi.map (apiRoutePair project)).mem_iff).mpr h1
      rw [imExtend_lookup_mem_nodup ((apiLeaves s2).map (apiRoutePair project))
          _ p _ (by rw [imKeys_map_apiRoutePair]; exact hndapi2) h2,
        imExtend_lookup_mem_nodup ((apiLeaves s1).map (apiRoutePair project))
          _ p _ (by rw [imKeys_map_apiRoutePair]; exact hndapi) h1]
    · have hp1' : ¬ p ∈ (apiLeaves s2).map itemPathname := fun h =>
        hp1 (((hapi.map itemPathname).mem_iff).mp h)
      have k3 : ¬ p ∈ imKeys ((apiLeaves s1).map (apiRoutePair project)) := by
        rw [imKeys_map_apiRoutePair]
        exact hp1
      have k4 : ¬ p ∈ imKeys ((apiLeaves s2).map (apiRoutePair project)) := by
        rw [imKeys_map_apiRoutePair]
        exact hp1'
      rw [imExtend_lookup_not_mem ((apiLeaves s2).map (apiRoutePair project))
          _ p k4,
        imExtend_lookup_not_mem ((apiLeaves s1).map (apiRoutePair project))
          _ p k3]

/-- Witness for C9 (amended) at a concrete input: two flat pages directories
holding the same two leaves (distinct pathnames `a` and `b`) in swapped
order produce the same value at pathname `/a`. -/
theorem pages_routes_order_independent_witness :
    imLookup (get_pages_routes ⟨"", "p"⟩
      ⟨none, some (.mk [⟨"b", "pages/b.js", "b.js"⟩,
                        ⟨"a", "pages/a.js", "a.js"⟩] [] "" "")⟩) "/a"
      = imLookup (get_pages_routes ⟨"", "p"⟩
      ⟨none, some (.mk [⟨"a", "pages/a.js", "a.js"⟩,
                        ⟨"b", "pages/b.js", "b.js"⟩] [] "" "")⟩) "/a" := by
  have hpl1 : pagesLeaves ⟨none, some (.mk [⟨"a", "pages/a.js", "a.js"⟩,
      ⟨"b", "pages/b.js", "b.js"⟩] [] "" "")⟩
      = [⟨"a", "pages/a.js", "a.js"⟩, ⟨"b", "pages/b.js", "b.js"⟩] := by
    simp [pagesLeaves, collectItems, PagesDirectoryStructure.items,
      PagesDirectoryStructure.children]
  have hpl2 : pagesLeaves ⟨none, some (.mk [⟨"b", "pages/b.js", "b.js"⟩,
      ⟨"a", "pages/a.js", "a.js"⟩] [] "" "")⟩
      = [⟨"b", "pages/b.js", "b.js"⟩, ⟨"a", "pages/a.js", "a.js"⟩] := by
    simp [pagesLeaves, collectItems, PagesDirectoryStructure.items,
      PagesDirectoryStructure.children]
  exact pages_routes_order_independent_for_distinct_pathnames ⟨"", "p"⟩ _ _
    (by rw [show apiLeaves ⟨none, some (.mk [⟨"a", "pages/a.js", "a.js"⟩,
        ⟨"b", "pages/b.js", "b.js"⟩] [] "" "")⟩ = [] from rfl]
        exact List.Perm.refl _)
    (by rw [hpl1, hpl2]; decide)
    (by rw [show apiLeaves ⟨none, some (.mk [⟨"a", "pages/a.js", "a.js"⟩,
        ⟨"b", "pages/b.js", "b.js"⟩] [] "" "")⟩ = [] from rfl]
        decide)
    (by rw [hpl1]; decide)
    "/a"

/-- Counterexample for C9 as stated: when two leaves of the pages source
share the pathname `foo` (carrying different source files), permuting the
leaf order changes the route mapped to `/foo` — insertion order within a
source is routing-significant for duplicate pathnames. -/
theorem pages_routes_insertion_order_matters_on_duplicate_pathnames :
    (pagesLeaves ⟨none, some (.mk [⟨"foo", "pages/foo2.js", "foo2.js"⟩,
        ⟨"foo", "pages/foo.js", "foo.js"⟩] [] "" "")⟩).Perm
      (pagesLeaves ⟨none, some (.mk [⟨"foo", "pages/foo.js", "foo.js"⟩,
        ⟨"foo", "pages/foo2.js", "foo2.js"⟩] [] "" "")⟩)
    ∧ apiLeaves ⟨none, some (.mk [⟨"foo", "pages/foo2.js", "foo2.js"⟩,
        ⟨"foo", "pages/foo.js", "foo.js"⟩] [] "" "")⟩
      = apiLeaves ⟨none, some (.mk [⟨"foo", "pages/foo.js", "foo.js"⟩,
        ⟨"foo", "pages/foo2.js", "foo2.js"⟩] [] "" "")⟩
    ∧ imLookup (get_pages_routes ⟨"", "p"⟩
        ⟨none, some (.mk [⟨"foo", "pages/foo2.js", "foo2.js"⟩,
          ⟨"foo", "pages/foo.js", "foo.js"⟩] [] "" "")⟩) "/foo"
      ≠ imLookup (get_pages_routes ⟨"", "p"⟩
        ⟨none, some (.mk [⟨"foo", "pages/foo.js", "foo.js"⟩,
          ⟨"foo", "pages/foo2.js", "foo2.js"⟩] [] "" "")⟩) "/foo" := by
  have hpl1 : pagesLeaves ⟨none, some (.mk [⟨"foo", "pages/foo.js", "foo.js"⟩,
      ⟨"foo", "pages/foo2.js", "foo2.js"⟩] [] "" "")⟩
      = [⟨"foo", "pages/foo.js", "foo.js"⟩, ⟨"foo", "pages/foo2.js", "foo2.js"⟩] := by
    simp [pagesLeaves, collectItems, PagesDirectoryStructure.items,
      PagesDirectoryStructure.children]
  have hpl2 : pagesLeaves ⟨none, some (.mk [⟨"foo", "pages/foo2.js", "foo2.js"⟩,
      ⟨"foo", "pages/foo.js", "foo.js"⟩] [] "" "")⟩
      = [⟨"foo", "pages/foo2.js", "foo2.js"⟩, ⟨"foo", "pages/foo.js", "foo.js"⟩] := by
    simp [pagesLeaves, collectItems, PagesDirectoryStructure.items,
      PagesDirectoryStructure.children]
  refine ⟨by rw [hpl1, hpl2]; decide, rfl, ?_⟩
  rw [get_pages_routes_eq, get_pages_routes_eq, hpl1, hpl2]
  rw [show apiLeaves ⟨none, some (.mk [⟨"foo", "pages/foo.js", "foo.js"⟩,
      ⟨"foo", "pages/foo2.js", "foo2.js"⟩] [] "" "")⟩ = [] from rfl]
  rw [show apiLeaves ⟨none, some (.mk [⟨"foo", "pages/foo2.js", "foo2.js"⟩,
      ⟨"foo", "pages/foo.js", "foo.js"⟩] [] "" "")⟩ = [] from rfl]
  decide

/-! ## Project construction, endpoint writes, client-reference chunks -/

/-- C5 (amended). `Project::new` succeeds exactly when `root_path` is a
string prefix of `project_path` (the check `strip_prefix(...).unwrap()`
actually performs); in particular it succeeds for every `project_path`
nested under `root_path`, but it also succeeds on non-nested paths that
merely share the string prefix, and on failure it panics in `unwrap` rather
than returning a structured configuration error. -/
theorem project_new_string_prefix_criterion (opts : ProjectOptions) :
    ((Project.new opts).isSome = true
      ↔ opts.root_path.data.isPrefixOf opts.project_path.data = true)
    ∧ (specNestedUnder opts.root_path opts.project_path = true →
        (Project.new opts).isSome = true) := by
  have hiff : (Project.new opts).isSome = true
      ↔ opts.root_path.data.isPrefixOf opts.project_path.data = true := by
    by_cases h : opts.root_path.data.isPrefixOf opts.project_path.data = true
    · simp [Project.new, stripPrefixStr, h]
    · simp [Project.new, stripPrefixStr, h]
  refine ⟨hiff, ?_⟩
  intro hnest
  apply hiff.mpr
  unfold specNestedUnder at hnest
  simp only [Bool.or_eq_true] at hnest
  rcases hnest with h | h
  · have heq : opts.project_path = opts.root_path := beq_iff_eq.mp h
    rw [heq]
    exact List.isPrefixOf_iff_prefix.mpr (List.prefix_refl _)
  · have hpre : (opts.root_path ++ "/").data.isPrefixOf opts.project_path.data
        = true := h
    have hpre' : (opts.root_path.data ++ ['/']) <+: opts.project_path.data := by
      have hd : (opts.root_path ++ "/").data = opts.root_path.data ++ ['/'] := rfl
      exact List.isPrefixOf_iff_prefix.mp (hd ▸ hpre)
    exact List.isPrefixOf_iff_prefix.mpr
      ((List.prefix_append opts.root_path.data ['/']).trans hpre')

/-- Counterexample for C5 as stated: the options with root `/a` and project
path `/ab` are not nested (the project does not live under the root as a
path), yet `Project::new` succeeds, because `strip_prefix` is a plain string
comparison. -/
theorem project_new_accepts_non_nested_path :
    specNestedUnder "/a" "/ab" = false
    ∧ (Project.new ⟨"/a", "/ab", false⟩).isSome = true := by
  constructor
  · decide
  · decide

/-- Witness for C5 (amended) at a concrete input: `/r/p` is nested under
`/r` and `Project::new` succeeds. -/
theorem project_new_string_prefix_criterion_witness :
    specNestedUnder "/r" "/r/p" = true
    ∧ (Project.new ⟨"/r", "/r/p", false⟩).isSome = true :=
  ⟨by decide,
   (project_new_string_prefix_criterion ⟨"/r", "/r/p", false⟩).2 (by decide)⟩

/-- C2 (evaluation of the code at the failing input). Every page/api
endpoint `write_to_disk` body of this crate terminates in `todo!()` — the
HTML endpoint after resolving its client module (or bails when resolution
fails), the data and API endpoints immediately — so no call ever returns a
`WrittenEndpoint`, contradicting the contract that repeated calls succeed
with equal results. -/
theorem write_to_disk_unimplemented_panics :
    PageHtmlEndpoint.write_to_disk ⟨⟨"", "p"⟩, "/", "/", "pages/index.js"⟩ true
      = WriteOutcome.panics "not yet implemented"
    ∧ PageHtmlEndpoint.write_to_disk ⟨⟨"", "p"⟩, "/", "/", "pages/index.js"⟩
        false
      = WriteOutcome.failed "expected an ECMAScript module asset"
    ∧ PageDataEndpoint.write_to_disk ⟨⟨"", "p"⟩, "/", "/", "pages/index.js"⟩
      = WriteOutcome.panics "not yet implemented"
    ∧ ApiEndpoint.write_to_disk
        ⟨⟨"", "p"⟩, "/api/hello", "/api/hello", "pages/api/hello.js"⟩
      = WriteOutcome.panics "not yet implemented" :=
  ⟨rfl, rfl, rfl, rfl⟩

/-- C4. Over a deduplicated set of client reference types, the computed map
sends every CSS reference to the chunk group of its client module with an
empty SSR side, and every Ecmascript reference to the chunk group of its
client module plus the SSR chunk group of its SSR module. -/
theorem client_reference_chunks_by_type
    (tys : List ClientReferenceType)
    (clientRootChunk : ModuleRef → ChunkRef)
    (clientChunkGroup : ChunkRef → List OutputAsset)
    (ssrRootChunk : ModuleRef → ChunkRef)
    (ssrChunkGroup : ChunkRef → List OutputAsset)
    (all_chunks : List OutputAsset)
    (hnd : tys.Nodup) :
    (∀ r : CssClientReference,
      ClientReferenceType.cssClientReference r ∈ tys →
      imLookup (compute_app_client_references_chunks tys clientRootChunk
          clientChunkGroup ssrRootChunk ssrChunkGroup all_chunks).1
        (ClientReferenceType.cssClientReference r)
        = some ⟨clientChunkGroup (clientRootChunk r.client_module), []⟩)
    ∧ (∀ r : EcmascriptClientReference,
      ClientReferenceType.ecmascriptClientReference r ∈ tys →
      imLookup (compute_app_client_references_chunks tys clientRootChunk
          clientChunkGroup ssrRootChunk ssrChunkGroup all_chunks).1
        (ClientReferenceType.ecmascriptClientReference r)
        = some ⟨clientChunkGroup (clientRootChunk r.client_module),
                ssrChunkGroup (ssrRootChunk r.ssr_module)⟩) := by
  have hkeys : imKeys (tys.map (fun ty =>
      (ty, clientReferenceChunksFor clientRootChunk clientChunkGroup
        ssrRootChunk ssrChunkGroup ty))) = tys := by
    simp only [imKeys, List.map_map]
    exact List.map_id _
  have main : ∀ ty ∈ tys,
      imLookup (compute_app_client_references_chunks tys clientRootChunk
          clientChunkGroup ssrRootChunk ssrChunkGroup all_chunks).1 ty
        = some (clientReferenceChunksFor clientRootChunk clientChunkGroup
            ssrRootChunk ssrChunkGroup ty) := by
    intro ty hmem
    show imLookup (imExtend [] (tys.map (fun ty =>
      (ty, clientReferenceChunksFor clientRootChunk clientChunkGroup
        ssrRootChunk ssrChunkGroup ty)))) ty = _
    apply imExtend_lookup_mem_nodup
    · rw [hkeys]
      exact hnd
    · exact List.mem_map_of_mem _ hmem
  exact ⟨fun r hr => main _ hr, fun r hr => main _ hr⟩

/-- Witness for C4 at a concrete input: one CSS reference on module `5` and
one Ecmascript reference on modules `1`/`2`, with root-chunk construction
`m + 1` and singleton chunk groups. -/
theorem client_reference_chunks_by_type_witness :
    ([ClientReferenceType.cssClientReference ⟨5⟩,
      ClientReferenceType.ecmascriptClientReference ⟨1, 2⟩] :
        List ClientReferenceType).Nodup
    ∧ imLookup (compute_app_client_references_chunks
        [ClientReferenceType.cssClientReference ⟨5⟩,
         ClientReferenceType.ecmascriptClientReference ⟨1, 2⟩]
        (fun m => m + 1) (fun c => [c]) (fun m => m + 10) (fun c => [c]) []).1
        (ClientReferenceType.cssClientReference ⟨5⟩)
      = some ⟨[6], []⟩ := by
  have hnd : ([ClientReferenceType.cssClientReference ⟨5⟩,
      ClientReferenceType.ecmascriptClientReference ⟨1, 2⟩] :
        List ClientReferenceType).Nodup := by decide
  exact ⟨hnd,
    (client_reference_chunks_by_type _ _ _ _ _ [] hnd).1 ⟨5⟩ (by decide)⟩

/-! ## Lemmas about the asset-graph traversal -/

theorem rtg_exit {n : Nat} (refs : Fin n → List (Fin n))
    (S : Finset (Fin n)) (a x : Fin n) (ha : a ∈ S) (hx : x ∉ S)
    (h : Relation.ReflTransGen (fun a b => b ∈ refs a) a x) :
    ∃ u z, u ∈ S ∧ z ∉ S ∧ z ∈ refs u
      ∧ Relation.ReflTransGen (fun a b => b ∈ refs a) z x := by
  induction h using Relation.ReflTransGen.head_induction_on with
  | refl => exact absurd ha hx
  | head hst hrest ih =>
    rename_i a' c
    by_cases hc : c ∈ S
    · exact ih hc
    · exact ⟨a', c, ha, hc, hst, hrest⟩

theorem bfs_sound {n : Nat} (refs : Fin n → List (Fin n))
    (ws : List (Fin n)) (visited : Finset (Fin n)) :
    ∀ x ∈ bfs refs ws visited, x ∉ visited ∧
      ∃ w ∈ ws, Relation.ReflTransGen (fun a b => b ∈ refs a) w x := by
  induction ws, visited using bfs.induct refs with
  | case1 visited => simp [bfs]
  | case2 a ws visited hmem ih =>
    rw [bfs, if_pos hmem]
    intro x hx
    obtain ⟨hnv, w, hw, hr⟩ := ih x hx
    exact ⟨hnv, w, List.mem_cons_of_mem a hw, hr⟩
  | case3 a ws visited hmem ih =>
    rw [bfs, if_neg hmem]
    intro x hx
    rw [List.mem_cons] at hx
    rcases hx with rfl | hx
    · exact ⟨hmem, x, List.mem_cons_self x ws, Relation.ReflTransGen.refl⟩
    · obtain ⟨hnv, w, hw, hr⟩ := ih x hx
      have hxv : x ∉ visited := fun hv => hnv (Finset.mem_insert_of_mem hv)
      rw [List.mem_append] at hw
      rcases hw with hw | hw
      · exact ⟨hxv, w, List.mem_cons_of_mem a hw, hr⟩
      · exact ⟨hxv, a, List.mem_cons_self a ws,
          Relation.ReflTransGen.head hw hr⟩

theorem bfs_nodup {n : Nat} (refs : Fin n → List (Fin n))
    (ws : List (Fin n)) (visited : Finset (Fin n)) :
    (bfs refs ws visited).Nodup := by
  induction ws, visited using bfs.induct refs with
  | case1 visited => simp [bfs]
  | case2 a ws visited hmem ih =>
    rw [bfs, if_pos hmem]
    exact ih
  | case3 a ws visited hmem ih =>
    rw [bfs, if_neg hmem]
    rw [List.nodup_cons]
    constructor
    · intro hmem2
      have := (bfs_sound refs (ws ++ refs a) (insert a visited) a hmem2).1
      exact this (Finset.mem_insert_self a visited)
    · exact ih

theorem bfs_complete {n : Nat} (refs : Fin n → List (Fin n))
    (ws : List (Fin n)) (visited : Finset (Fin n)) :
    (∀ v ∈ visited, ∀ c ∈ refs v, c ∈ visited ∨ c ∈ ws) →
    ∀ x, x ∉ visited →
    (∃ w ∈ ws, Relation.ReflTransGen (fun a b => b ∈ refs a) w x) →
    x ∈ bfs refs ws visited := by
  induction ws, visited using bfs.induct refs with
  | case1 visited =>
    intro _ x _ hwit
    obtain ⟨w, hw, _⟩ := hwit
    simp at hw
  | case2 a ws visited hmem ih =>
    intro hinv x hxv hwit
    rw [bfs, if_pos hmem]
    apply ih
    · intro v hv c hc
      rcases hinv v hv c hc with h | h
      · exact Or.inl h
      · rw [List.mem_cons] at h
        rcases h with rfl | h
        · exact Or.inl hmem
        · exact Or.inr h
    · exact hxv
    · obtain ⟨w, hw, hr⟩ := hwit
      rw [List.mem_cons] at hw
      rcases hw with rfl | hw
      · obtain ⟨u, z, huS, hzS, hstep, hzx⟩ :=
          rtg_exit refs visited w x hmem hxv hr
        have hz : z ∈ visited ∨ z ∈ w :: ws := hinv u huS z hstep
        rcases hz with hz | hz
        · exact absurd hz hzS
        · rw [List.mem_cons] at hz
          rcases hz with rfl | hz
          · exact absurd hmem hzS
          · exact ⟨z, hz, hzx⟩
      · exact ⟨w, hw, hr⟩
  | case3 a ws visited hmem ih =>
    intro hinv x hxv hwit
    rw [bfs, if_neg hmem]
    by_cases hxa : x = a
    · subst hxa
      exact List.mem_cons_self x _
    · apply List.mem_cons_of_mem
      apply ih
      · intro v hv c hc
        rw [Finset.mem_insert] at hv
        rcases hv with rfl | hv
        · exact Or.inr (List.mem_append.mpr (Or.inr hc))
        · rcases hinv v hv c hc with h | h
          · exact Or.inl (Finset.mem_insert_of_mem h)
          · rw [List.mem_cons] at h
            rcases h with rfl | h
            · exact Or.inl (Finset.mem_insert_self c visited)
            · exact Or.inr (List.mem_append.mpr (Or.inl h))
      · rw [Finset.mem_insert]
        push_neg
        exact ⟨hxa, hxv⟩
      · obtain ⟨w, hw, hr⟩ := hwit
        rw [List.mem_cons] at hw
        rcases hw with rfl | hw
        · rcases hr.cases_head with heq | ⟨c, hc, hcx⟩
          · exact absurd heq.symm hxa
          · exact ⟨c, List.mem_append.mpr (Or.inr hc), hcx⟩
        · exact ⟨w, List.mem_append.mpr (Or.inl hw), hr⟩

theorem countP_filterMap_snd_le_one {α β : Type} [BEq α] [LawfulBEq α]
    (l : List α) (f : α → Option (β × α)) (a : α)
    (hl : l.Nodup) (hf : ∀ x y, f x = some y → y.2 = x) :
    (l.filterMap f).countP (fun w => w.2 == a) ≤ 1 := by
  induction l with
  | nil => simp
  | cons x xs ih =>
    rw [List.filterMap_cons]
    rw [List.nodup_cons] at hl
    cases hfx : f x with
    | none => exact ih hl.2
    | some w =>
      rw [List.countP_cons]
      have hw : w.2 = x := hf x w hfx
      by_cases hxa : x = a
      · subst hxa
        have hzero : (xs.filterMap f).countP (fun w => w.2 == x) = 0 := by
          rw [List.countP_eq_zero]
          intro y hy
          obtain ⟨b, hb, hfb⟩ := List.mem_filterMap.mp hy
          have hyb : y.2 = b := hf b y hfb
          rw [hyb]
          intro hbeq
          exact hl.1 (eq_of_beq hbeq ▸ hb)
        rw [hzero]
        simp [hw]
      · have hne : (w.2 == a) = false := by
          rw [hw]
          exact beq_eq_false_iff_ne.mpr hxa
        rw [hne]
        simpa using ih hl.2

theorem filterMap_filter_snd_of_nodup {α β : Type} [BEq α] [LawfulBEq α]
    (l : List α) (f : α → Option (β × α)) (a : α)
    (hl : l.Nodup) (ha : a ∈ l) (hf : ∀ x y, f x = some y → y.2 = x) :
    (l.filterMap f).filter (fun w => w.2 == a) = (f a).toList := by
  induction l with
  | nil => simp at ha
  | cons x xs ih =>
    rw [List.nodup_cons] at hl
    rw [List.mem_cons] at ha
    rw [List.filterMap_cons]
    have hnotin : x = a →
        (xs.filterMap f).filter (fun w => w.2 == a) = [] := by
      intro hx
      rw [List.filter_eq_nil_iff]
      intro y hy
      obtain ⟨b, hb, hfb⟩ := List.mem_filterMap.mp hy
      have hyb : y.2 = b := hf b y hfb
      rw [hyb]
      intro hbeq
      have hba : b = a := eq_of_beq hbeq
      apply hl.1
      rw [hx, ← hba]
      exact hb
    cases hfx : f x with
    | none =>
      rcases ha with rfl | ha
      · rw [hnotin rfl, hfx]
        rfl
      · exact ih hl.2 ha
    | some w =>
      have hw2 : w.2 = x := hf x w hfx
      rw [List.filter_cons]
      rcases ha with rfl | ha
      · rw [if_pos (by rw [hw2]; exact beq_self_eq_true a)]
        rw [hnotin rfl, hfx]
        rfl
      · have hxa : ¬ (w.2 == a) = true := by
          rw [hw2]
          intro hbeq
          exact hl.1 (eq_of_beq hbeq ▸ ha)
        rw [if_neg hxa]
        exact ih hl.2 ha

/-- C7. The asset-graph traversal is total (the worklist recursion is
well-founded) and collects exactly the assets reachable from the entry
chunks, each exactly once — diamonds and cycles included, since the
reference function is arbitrary; consequently emission issues at most one
write per asset. -/
theorem asset_traversal_collects_each_reachable_once {n : Nat}
    (refs : Fin n → List (Fin n)) (entries : List (Fin n)) :
    (all_assets_from_entries refs entries).Nodup
    ∧ (∀ x, x ∈ all_assets_from_entries refs entries
        ↔ ∃ e ∈ entries, Relation.ReflTransGen (fun a b => b ∈ refs a) e x)
    ∧ (∀ (assetPath : Fin n → FsPath)
        (node_root client_relative_path client_output_path : FsPath)
        (a : Fin n),
        (emit_all_assets refs entries assetPath node_root
          client_relative_path client_output_path).countP
            (fun w => w.2 == a) ≤ 1) := by
  refine ⟨bfs_nodup refs entries ∅, ?_, ?_⟩
  · intro x
    constructor
    · intro hx
      obtain ⟨_, w, hw, hr⟩ := bfs_sound refs entries ∅ x hx
      exact ⟨w, hw, hr⟩
    · intro hwit
      exact bfs_complete refs entries ∅ (by simp) x (Finset.not_mem_empty x)
        hwit
  · intro assetPath node_root client_relative_path client_output_path a
    apply countP_filterMap_snd_le_one _ _ _ (bfs_nodup refs entries ∅)
    intro x y hxy
    unfold emitAssetWrite at hxy
    split at hxy
    · injection hxy with h2
      rw [← h2]
    · split at hxy
      · injection hxy with h2
        rw [← h2]
      · cases hxy

/-- C6. For every asset collected during emission, exactly the first
matching rule of the emission policy applies: a path inside the node output
root is written verbatim; otherwise a path inside the client-relative
namespace is written rebased onto the client output root; otherwise no
write is issued for that asset. -/
theorem emission_policy_first_match {n : Nat}
    (refs : Fin n → List (Fin n)) (chunks : List (Fin n))
    (assetPath : Fin n → FsPath)
    (node_root client_relative_path client_output_path : FsPath)
    (a : Fin n)
    (ha : a ∈ all_assets_from_entries refs chunks) :
    (isInside (assetPath a) node_root = true →
      (emit_all_assets refs chunks assetPath node_root client_relative_path
        client_output_path).filter (fun w => w.2 == a)
        = [(assetPath a, a)])
    ∧ (isInside (assetPath a) node_root = false →
       isInside (assetPath a) client_relative_path = true →
      (emit_all_assets refs chunks assetPath node_root client_relative_path
        client_output_path).filter (fun w => w.2 == a)
        = [(rebase (assetPath a) client_relative_path client_output_path, a)])
    ∧ (isInside (assetPath a) node_root = false →
       isInside (assetPath a) client_relative_path = false →
      (emit_all_assets refs chunks assetPath node_root client_relative_path
        client_output_path).filter (fun w => w.2 == a) = []) := by
  have hf : ∀ (x : Fin n) (y : FsPath × Fin n),
      emitAssetWrite assetPath node_root client_relative_path
        client_output_path x = some y → y.2 = x := by
    intro x y hxy
    unfold emitAssetWrite at hxy
    split at hxy
    · injection hxy with h2
      rw [← h2]
    · split at hxy
      · injection hxy with h2
        rw [← h2]
      · cases hxy
  have hbase : (emit_all_assets refs chunks assetPath node_root
      client_relative_path client_output_path).filter (fun w => w.2 == a)
      = (emitAssetWrite assetPath node_root client_relative_path
          client_output_path a).toList :=
    filterMap_filter_snd_of_nodup (all_assets_from_entries refs chunks) _ a
      (bfs_nodup refs chunks ∅) ha hf
  refine ⟨?_, ?_, ?_⟩
  · intro h1
    rw [hbase]
    unfold emitAssetWrite
    rw [if_pos h1]
    rfl
  · intro h1 h2
    rw [hbase]
    unfold emitAssetWrite
    rw [if_neg (by rw [h1]; exact Bool.false_ne_true), if_pos h2]
    rfl
  · intro h1 h2
    rw [hbase]
    unfold emitAssetWrite
    rw [if_neg (by rw [h1]; exact Bool.false_ne_true),
      if_neg (by rw [h2]; exact Bool.false_ne_true)]
    rfl

/-- Witness for C6 at a concrete input: a single chunk whose path lies under
the node output root is written verbatim. -/
theorem emission_policy_first_match_witness :
    ((0 : Fin 1) ∈ all_assets_from_entries (fun _ => ([] : List (Fin 1))) [0])
    ∧ isInside (⟨"node", [".next", "x.js"]⟩ : FsPath) ⟨"node", [".next"]⟩
        = true
    ∧ (emit_all_assets (fun _ => ([] : List (Fin 1))) [0]
        (fun _ => ⟨"node", [".next", "x.js"]⟩) ⟨"node", [".next"]⟩
        ⟨"client", [".next", "_next"]⟩ ⟨"client", [".next"]⟩).filter
          (fun w => w.2 == (0 : Fin 1))
        = [(⟨"node", [".next", "x.js"]⟩, 0)] := by
  have ha : (0 : Fin 1)
      ∈ all_assets_from_entries (fun _ => ([] : List (Fin 1))) [0] := by
    simp [all_assets_from_entries, bfs]
  refine ⟨ha, by decide, ?_⟩
  exact (emission_policy_first_match (fun _ => ([] : List (Fin 1))) [0]
    (fun _ => ⟨"node", [".next", "x.js"]⟩) ⟨"node", [".next"]⟩
    ⟨"client", [".next", "_next"]⟩ ⟨"client", [".next"]⟩ 0 ha).1 (by decide)

/-! ## Build orchestration -/

/-- C3. A fatal diagnostic in page-entry or app-entry discovery makes
`next_build` return the error `Fatal issue(s) occurred` with zero file
writes issued, after reporting every diagnostic collected up to and
including the failing check: all page-entry diagnostics when the page check
fails, and all page-entry plus app-entry diagnostics when the app check
fails. -/
theorem fatal_entry_discovery_aborts_before_writes {n : Nat}
    (inp : BuildInputs n)
    (h : hasFatal inp.pageIssues = true ∨ hasFatal inp.appIssues = true) :
    (nextBuild inp).outcome = BuildOutcome.failed "Fatal issue(s) occurred"
    ∧ (nextBuild inp).writes = []
    ∧ (∀ i ∈ inp.pageIssues, i ∈ (nextBuild inp).reported)
    ∧ (hasFatal inp.pageIssues = true →
        (nextBuild inp).reported = inp.pageIssues)
    ∧ (hasFatal inp.pageIssues = false →
        (nextBuild inp).reported = inp.pageIssues ++ inp.appIssues) := by
  by_cases h1 : hasFatal inp.pageIssues = true
  · have hnb : nextBuild inp
        = ⟨inp.pageIssues, [], BuildOutcome.failed "Fatal issue(s) occurred"⟩ := by
      unfold nextBuild
      rw [if_pos h1]
    rw [hnb]
    refine ⟨rfl, rfl, fun i hi => hi, fun _ => rfl, fun hcontra => ?_⟩
    rw [h1] at hcontra
    cases hcontra
  · have h2 : hasFatal inp.appIssues = true := by
      rcases h with h | h
      · exact absurd h h1
      · exact h
    have hnb : nextBuild inp
        = ⟨inp.pageIssues ++ inp.appIssues, [],
           BuildOutcome.failed "Fatal issue(s) occurred"⟩ := by
      unfold nextBuild
      rw [if_neg h1, if_pos h2]
    rw [hnb]
    exact ⟨rfl, rfl, fun i hi => List.mem_append_left _ hi,
      fun hx => absurd hx h1, fun _ => rfl⟩

/-- Witness for C3 at a concrete input: one fatal page-entry diagnostic
aborts the build with no writes. -/
theorem fatal_entry_discovery_aborts_before_writes_witness :
    hasFatal [⟨"parse error", true⟩] = true
    ∧ (nextBuild (⟨[⟨"parse error", true⟩], [], [], none, [],
        (fun i => i.elim0), (fun i => i.elim0), fun l => l⟩ :
          BuildInputs 0)).writes = []
    ∧ (nextBuild (⟨[⟨"parse error", true⟩], [], [], none, [],
        (fun i => i.elim0), (fun i => i.elim0), fun l => l⟩ :
          BuildInputs 0)).outcome
      = BuildOutcome.failed "Fatal issue(s) occurred" := by
  have hfatal : hasFatal [⟨"parse error", true⟩] = true := by decide
  have hmain := fatal_entry_discovery_aborts_before_writes
    (⟨[⟨"parse error", true⟩], [], [], none, [],
      (fun i => i.elim0), (fun i => i.elim0), fun l => l⟩ : BuildInputs 0)
    (Or.inl hfatal)
  exact ⟨hfatal, hmain.2.1, hmain.1⟩

/-- C8. The legacy client build manifest lists the pages exactly in the order
produced by the external path-specificity sorter over the pages-manifest
keys; its per-page dependency map contains no entry for `_app` (under either
spelling of the key); and every recorded dependency of every page comes from
that page's pages-manifest entry and is not a dependency already recorded
for `/_app`. -/
theorem client_build_manifest_sorted_excludes_app_filters_deps
    (sortRoutes : List String → List String)
    (pm : List (String × String)) (rewrites : String) :
    (computeClientBuildManifest sortRoutes pm rewrites).sorted_pages
      = sortRoutes (imKeys pm)
    ∧ imLookup (computeClientBuildManifest sortRoutes pm rewrites).pages
        "/_app" = none
    ∧ imLookup (computeClientBuildManifest sortRoutes pm rewrites).pages
        "_app" = none
    ∧ (∀ p deps,
        imLookup (computeClientBuildManifest sortRoutes pm rewrites).pages p
          = some deps →
        deps ≠ [] ∧ ∀ d ∈ deps,
          imLookup pm p = some d ∧ ¬ imLookup pm "/_app" = some d) := by
  have hself : ∀ o : Option String,
      o.toList.filter (fun dep => ¬ dep ∈ o.toList) = [] := by
    intro o
    cases o with
    | none => rfl
    | some v => simp
  have main : ∀ (l : List String) (acc : List (String × List String)),
      (imLookup acc "/_app" = none ∧ imLookup acc "_app" = none ∧
        ∀ p deps, imLookup acc p = some deps →
          deps ≠ [] ∧ ∀ d ∈ deps,
            imLookup pm p = some d ∧ ¬ imLookup pm "/_app" = some d) →
      (imLookup (l.foldl (clientManifestPageStep pm) acc) "/_app" = none ∧
        imLookup (l.foldl (clientManifestPageStep pm) acc) "_app" = none ∧
        ∀ p deps,
          imLookup (l.foldl (clientManifestPageStep pm) acc) p = some deps →
          deps ≠ [] ∧ ∀ d ∈ deps,
            imLookup pm p = some d ∧ ¬ imLookup pm "/_app" = some d) := by
    intro l
    induction l with
    | nil => exact fun acc hacc => hacc
    | cons q rest ih =>
      intro acc hacc
      rw [List.foldl_cons]
      apply ih
      by_cases hq : q = "_app"
      · rw [show clientManifestPageStep pm acc q = acc from by
          unfold clientManifestPageStep
          rw [if_pos hq]]
        exact hacc
      · by_cases hdeps : ((imLookup pm q).toList.filter
            (fun dep => ¬ dep ∈ (imLookup pm "/_app").toList)) = []
        · rw [show clientManifestPageStep pm acc q = acc from by
            simp only [clientManifestPageStep]
            rw [if_neg hq, if_pos hdeps]]
          exact hacc
        · rw [show clientManifestPageStep pm acc q
              = imInsert acc q ((imLookup pm q).toList.filter
                  (fun dep => ¬ dep ∈ (imLookup pm "/_app").toList)) from by
            simp only [clientManifestPageStep]
            rw [if_neg hq, if_neg hdeps]]
          have hqapp : q ≠ "/_app" := by
            intro hcontra
            apply hdeps
            rw [hcontra]
            exact hself (imLookup pm "/_app")
          refine ⟨?_, ?_, ?_⟩
          · rw [imLookup_insert_ne acc q _ "/_app"
              (fun he => hqapp he.symm)]
            exact hacc.1
          · rw [imLookup_insert_ne acc q _ "_app" (fun he => hq he.symm)]
            exact hacc.2.1
          · intro p deps hlook
            by_cases hpq : p = q
            · subst hpq
              rw [imLookup_insert_self] at hlook
              injection hlook with hdepseq
              subst hdepseq
              refine ⟨hdeps, ?_⟩
              intro d hd
              rw [List.mem_filter] at hd
              obtain ⟨hdIn, hdPred⟩ := hd
              constructor
              · rw [Option.mem_toList] at hdIn
                exact hdIn
              · intro hcontra
                rw [decide_eq_true_eq] at hdPred
                apply hdPred
                rw [Option.mem_toList]
                exact hcontra
            · rw [imLookup_insert_ne acc q _ p hpq] at hlook
              exact hacc.2.2 p deps hlook
  have base : imLookup ([] : List (String × List String)) "/_app" = none ∧
      imLookup ([] : List (String × List String)) "_app" = none ∧
      ∀ p deps, imLookup ([] : List (String × List String)) p = some deps →
        deps ≠ [] ∧ ∀ d ∈ deps,
          imLookup pm p = some d ∧ ¬ imLookup pm "/_app" = some d := by
    refine ⟨rfl, rfl, fun p deps h => ?_⟩
    simp [imLookup] at h
  obtain ⟨m1, m2, m3⟩ := main (sortRoutes (imKeys pm)) [] base
  exact ⟨rfl, m1, m2, m3⟩

/-- Witness for C8 at a concrete input: pages manifest with `/_app` and
`/foo`; the identity sorter keeps both in `sorted_pages`, the per-page map
drops `/_app` and keeps the dependency of `/foo`. -/
theorem client_build_manifest_witness :
    imLookup (computeClientBuildManifest (fun l => l)
      [("/_app", "app.js"), ("/foo", "foo.js")] "").pages "/_app" = none
    ∧ imLookup (computeClientBuildManifest (fun l => l)
      [("/_app", "app.js"), ("/foo", "foo.js")] "").pages "/foo"
      = some ["foo.js"]
    ∧ (computeClientBuildManifest (fun l => l)
      [("/_app", "app.js"), ("/foo", "foo.js")] "").sorted_pages
      = ["/_app", "/foo"] := by
  refine ⟨(client_build_manifest_sorted_excludes_app_filters_deps
    (fun l => l) [("/_app", "app.js"), ("/foo", "foo.js")] "").2.1, ?_, ?_⟩
  · decide
  · decide
